import Mathlib

/-!
Shallow embedding of pake.py, a minimal incremental build tool.

The embedding models the program state explicitly: the target registry
(TargetCollection.targets), the rule registry, the filesystem as a map from
path to modification time, a wall clock, and an event trace recording the
observable side effects (stat calls, action executions, file removals).
Machine timestamps are modelled as Int (mtimes may be the sentinel -1);
the wall clock is a Nat (time.time() is nonnegative).  Exceptions are
modelled with Except, and every operation returns the post-state even on
error, mirroring Python's global mutable state surviving a raised
exception.  Actions are identified by a tag and interpreted by an explicit
interpretation function, since user actions are arbitrary callables.
Recursive graph traversals (build, recursive clean) take a fuel argument;
exhausted fuel is a distinguished error (Python would instead hit the
recursion limit on a cyclic graph).
-/

namespace Pake

/-- Exceptions of pake.py: AmbiguousRuleError, DuplicateTargetError,
BuildError, plus two model-level errors (a method called on an unregistered
name, and fuel exhaustion). -/
inductive Err where
  | ambiguousRule (name : String)
  | duplicateTarget (name : String)
  | buildError (target : String) (message : String)
  | notRegistered (name : String)
  | fuel
deriving DecidableEq

/-- Observable side effects: a stat/exists query of a path, an action
invocation for a target, and a file-removal attempt. -/
inductive Event where
  | stat (name : String)
  | runAction (name : String)
  | removeFile (name : String)
deriving DecidableEq

/-- Target.__init__: name, optional action (identified by a tag and
interpreted externally), the _clean flag, the (pre-flattened) dependency
name list, the _makedirs flag, phony, precious, and the memoized timestamp
(None until the first build visit). -/
structure Target where
  name : String
  action : Option String := none
  cleanFlag : Bool := true
  dependencies : List String := []
  makedirsFlag : Bool := true
  phony : Bool := false
  precious : Bool := false
  timestamp : Option Int := none
deriving DecidableEq

/-- An implicit rule: regexp plus factory.  The pattern models
regexp.search, returning the match witness when the pattern matches
somewhere in the name; the factory receives (name, match). -/
structure Rule where
  pattern : String → Option String
  factory : String → String → Target

/-- The program state: the TargetCollection (registry plus default
pointer), the rule registry, the filesystem (path to mtime), the wall
clock, and the event trace. -/
structure PakeState where
  targets : List (String × Target)
  defaultTarget : Option String := none
  rules : List Rule := []
  fs : String → Option Int
  now : Nat
  events : List Event := []

/-- Interpretation of user actions: given the action tag and the owning
target's registry key, transform the state (self.action(self)). -/
def Interp : Type := String → String → PakeState → (Except Err Unit) × PakeState

/-- Association-list lookup with String keys (Python dict lookup). -/
def lookupA {α : Type} : List (String × α) → String → Option α
  | [], _ => none
  | (k, v) :: rest, n => if k = n then some v else lookupA rest n

/-- Pointwise filesystem update (os.remove sets none, writing sets some). -/
def updateFS (fs : String → Option Int) (n : String) (v : Option Int) :
    String → Option Int :=
  fun m => if m = n then v else fs m

/-- Overwrite the memoized timestamp of the registry entry with key n
(self.timestamp = v through the shared object). -/
def setTS : List (String × Target) → String → Int → List (String × Target)
  | [], _, _ => []
  | (k, t) :: rest, n, v =>
    (k, if k = n then { t with timestamp := some v } else t) :: setTS rest n v

/-- Append one event to the trace. -/
def pushEvent (s : PakeState) (e : Event) : PakeState :=
  { s with events := s.events ++ [e] }

/-- All rules whose pattern search-matches the name, with their match
witnesses, in registry order. -/
def matchedRules (rs : List Rule) (name : String) : List (Rule × String) :=
  rs.filterMap (fun r => (r.pattern name).map (fun m => (r, m)))

/-- TargetCollection.get (pake.py lines 156-170): return the memoized
target; otherwise resolve through the rules (exactly one match invokes the
factory, two or more raise AmbiguousRuleError before any registration,
zero synthesizes the precious placeholder), register the result under the
requested name and return it. -/
def get (s : PakeState) (name : String) : (Except Err Target) × PakeState :=
  match lookupA s.targets name with
  | some t => (.ok t, s)
  | none =>
    match matchedRules s.rules name with
    | [] =>
      let t : Target := { name := name, precious := true }
      (.ok t, { s with targets := (name, t) :: s.targets })
    | [(r, m)] =>
      let t := r.factory name m
      (.ok t, { s with targets := (name, t) :: s.targets })
    | _ => (.error (.ambiguousRule name), s)

/-- TargetCollection.add (pake.py lines 149-154): refuse duplicates,
register, and set the default pointer if not yet set. -/
def add (s : PakeState) (t : Target) : (Except Err Unit) × PakeState :=
  match lookupA s.targets t.name with
  | some _ => (.error (.duplicateTarget t.name), s)
  | none =>
    (.ok (), { s with
      targets := (t.name, t) :: s.targets,
      defaultTarget := some (s.defaultTarget.getD t.name) })

/-- Target.clean (pake.py lines 91-100): if (_clean or really) and not
precious, attempt os.remove(self.name) — a missing file is silently
ignored, which the model realises by the removal being a no-op on an
absent path — then, when recurse is set, resolve and clean every
dependency with the same flags. -/
def clean : Nat → Bool → Bool → String → PakeState → (Except Err Unit) × PakeState
  | 0, _, _, _, s => (.error .fuel, s)
  | fuel+1, really, recurse, name, s =>
    match lookupA s.targets name with
    | none => (.error (.notRegistered name), s)
    | some t =>
      let s₁ :=
        if (t.cleanFlag || really) && !t.precious then
          pushEvent { s with fs := updateFS s.fs t.name none } (.removeFile t.name)
        else s
      if recurse then
        t.dependencies.foldl
          (fun (acc : (Except Err Unit) × PakeState) d =>
            match acc with
            | (.error e, s') => (.error e, s')
            | (.ok _, s') =>
              match get s' d with
              | (.error e, s'') => (.error e, s'')
              | (.ok _, s'') => clean fuel really recurse d s'')
          (.ok (), s₁)
      else (.ok (), s₁)

/-- The dependency loop of Target.clean (lines 98-100) as a standalone
fold, for reasoning; clean unfolds to it definitionally. -/
def cleanDeps (fuel : Nat) (really recurse : Bool)
    (acc : (Except Err Unit) × PakeState) (deps : List String) :
    (Except Err Unit) × PakeState :=
  deps.foldl
    (fun (acc : (Except Err Unit) × PakeState) d =>
      match acc with
      | (.error e, s') => (.error e, s')
      | (.ok _, s') =>
        match get s' d with
        | (.error e, s'') => (.error e, s'')
        | (.ok _, s'') => clean fuel really recurse d s'')
    acc

/-- Target.run (pake.py lines 126-133): spawn the process (its exit status
is an input of the model); on non-zero exit, non-recursively clean this
target and raise BuildError tagging it. -/
def run (s : PakeState) (name : String) (exitOk : Bool) :
    (Except Err Unit) × PakeState :=
  if exitOk then (.ok (), s)
  else
    let s₁ := (clean 1 false false name s).2
    (.error (.buildError name "CalledProcessError"), s₁)

/-- Target.output (pake.py lines 115-124): like run, but on success the
captured output is written to the artifact (modelled as the file existing
with mtime now); on failure, non-recursively clean and raise BuildError. -/
def output (s : PakeState) (name : String) (exitOk : Bool) :
    (Except Err Unit) × PakeState :=
  if exitOk then
    match lookupA s.targets name with
    | some t => (.ok (), { s with fs := updateFS s.fs t.name (some (s.now : Int)) })
    | none => (.error (.notRegistered name), s)
  else
    let s₁ := (clean 1 false false name s).2
    (.error (.buildError name "CalledProcessError"), s₁)

/-- Target.cp (pake.py lines 86-89): the body's first statement is
args.pop(), but args is a tuple and tuples have no pop method, so every
call raises AttributeError before any copy happens. -/
def cp (_args : List String) : (Except String Unit) :=
  .error "AttributeError: tuple object has no attribute pop"

/-- Lines 69-73 of Target.build: memoize the timestamp on first visit —
the artifact's mtime when non-phony and present (a stat of self.name),
otherwise -1 — and leave it untouched on later visits.  Returns the
memoized value and the updated state. -/
def initStep (name : String) (t : Target) (s : PakeState) : Int × PakeState :=
  match t.timestamp with
  | some v => (v, s)
  | none =>
    if t.phony then (-1, { s with targets := setTS s.targets name (-1) })
    else
      match s.fs t.name with
      | some mt =>
        (mt, pushEvent { s with targets := setTS s.targets name mt } (.stat t.name))
      | none =>
        (-1, pushEvent { s with targets := setTS s.targets name (-1) } (.stat t.name))

/-- Lines 68-84 of Target.build, after the dependency loop: memoize the
timestamp (initStep); if it is strictly below the maximum dependency
timestamp ts, the target is stale: run the attached action (unless dry or
absent), then set the memoized timestamp to ts, or to the wall clock when
ts is zero (timestamp or time.time()), and return it; otherwise return
the memoized timestamp unchanged.  The makedirs call of line 76-77 only
creates parent directories and is not modelled (the filesystem map holds
files, not directories). -/
def buildFinish (interp : Interp) (dry : Bool) (name : String) (ts : Int)
    (s : PakeState) : (Except Err Int) × PakeState :=
  match lookupA s.targets name with
  | none => (.error (.notRegistered name), s)
  | some t =>
    let p := initStep name t s
    if p.1 < ts then
      let q :=
        match t.action with
        | none => ((Except.ok ()), p.2)
        | some a =>
          if dry then (.ok (), p.2)
          else interp a name (pushEvent p.2 (.runAction t.name))
      match q with
      | (.error e, s₃) => (.error e, s₃)
      | (.ok _, s₃) =>
        let v := if ts = 0 then ((s₃.now : Nat) : Int) else ts
        (.ok v, { s₃ with targets := setTS s₃.targets name v })
    else (.ok p.1, p.2)

/-- Target.build (pake.py lines 63-84): resolve and recursively build
every dependency through the collection, folding the maximum returned
timestamp starting from 0, then finish with the staleness test and
timestamp update.  BuildError (and any other error) from a dependency or
the action propagates immediately. -/
def build (interp : Interp) : Nat → Bool → String → PakeState →
    (Except Err Int) × PakeState
  | 0, _, _, s => (.error .fuel, s)
  | fuel+1, dry, name, s =>
    match lookupA s.targets name with
    | none => (.error (.notRegistered name), s)
    | some t =>
      match t.dependencies.foldl
        (fun (acc : (Except Err Int) × PakeState) d =>
          match acc with
          | (.error e, s') => (.error e, s')
          | (.ok ts, s') =>
            match get s' d with
            | (.error e, s₁) => (.error e, s₁)
            | (.ok _, s₁) =>
              match build interp fuel dry d s₁ with
              | (.error e, s₂) => (.error e, s₂)
              | (.ok dv, s₂) => (.ok (max ts dv), s₂))
        (.ok 0, s) with
      | (.error e, s₁) => (.error e, s₁)
      | (.ok ts, s₁) => buildFinish interp dry name ts s₁

/-- The dependency loop of Target.build (lines 64-67) as a standalone
fold, for reasoning; build unfolds to it definitionally. -/
def buildDeps (interp : Interp) (fuel : Nat) (dry : Bool)
    (acc : (Except Err Int) × PakeState) (deps : List String) :
    (Except Err Int) × PakeState :=
  deps.foldl
    (fun (acc : (Except Err Int) × PakeState) d =>
      match acc with
      | (.error e, s') => (.error e, s')
      | (.ok ts, s') =>
        match get s' d with
        | (.error e, s₁) => (.error e, s₁)
        | (.ok _, s₁) =>
          match build interp fuel dry d s₁ with
          | (.error e, s₂) => (.error e, s₂)
          | (.ok dv, s₂) => (.ok (max ts dv), s₂))
    acc

/-- VariableCollection.__setitem__ (pake.py lines 179-181): first write
wins — a key already present is never overwritten. -/
def setitem (vars : List (String × String)) (k v : String) :
    List (String × String) :=
  if (lookupA vars k).isSome then vars else vars ++ [(k, v)]

/-- Plain dict.__setitem__, as invoked directly by main on line 227:
overwrite the entry if the key is present (keeping its position), append
otherwise. -/
def dictSetitem : List (String × String) → String → String →
    List (String × String)
  | [], k, v => [(k, v)]
  | (a, b) :: rest, k, v =>
    if a = k then (k, v) :: rest else (a, b) :: dictSetitem rest k v

/-- Python \w (ASCII): letters, digits and underscore. -/
def isWordChar (c : Char) : Bool :=
  ('a' ≤ c && c ≤ 'z') || ('A' ≤ c && c ≤ 'Z') || ('0' ≤ c && c ≤ '9') || c = '_'

/-- The regex match of main's argument loop (line 221),
(?P<key>\w+)=(?P<value>.*)\Z anchored at the start: a nonempty maximal
word-character prefix immediately followed by an equals sign; the value is
everything after that sign. -/
def parseAssignment (tok : String) : Option (String × String) :=
  let key := tok.toList.takeWhile isWordChar
  match tok.toList.drop key.length with
  | '=' :: value => if key.isEmpty then none else some (⟨key⟩, ⟨value⟩)
  | _ => none

/-- One iteration of main's argument loop (pake.py lines 220-229): a
key=value token is written into the variable table with a direct
dict.__setitem__ (bypassing the VariableCollection setter), any other
token is collected as a target name. -/
def processArg (acc : List (String × String) × List String) (arg : String) :
    List (String × String) × List String :=
  match parseAssignment arg with
  | some (k, v) => (dictSetitem acc.1 k v, acc.2)
  | none => (acc.1, acc.2 ++ [arg])

/-- main's whole argument loop: fold processArg over the positional
arguments, starting from the seeded variable table. -/
def mainArgs (vars : List (String × String)) (args : List String) :
    List (String × String) × List String :=
  args.foldl processArg (vars, [])

/-- An interpretation of actions that never touches the target registry:
user actions do shell work and file writes, not registry surgery. -/
def InterpPreserves (interp : Interp) : Prop :=
  ∀ a n s, ((interp a n s).2).targets = s.targets

/-- A target is done at fuel f: it is registered, its timestamp is
memoized to a nonnegative value, and every dependency is done at smaller
fuel with a value not exceeding it.  This is the state of a target after a
successful build visit. -/
def Done : Nat → List (String × Target) → String → Int → Prop
  | 0, _, _, _ => False
  | f+1, T, n, v =>
    ∃ t, lookupA T n = some t ∧ t.timestamp = some v ∧ 0 ≤ v ∧
      ∀ d ∈ t.dependencies, ∃ dv, Done f T d dv ∧ dv ≤ v

/-- Registry evolution during a build session: every registered target
stays registered and keeps every field except possibly the memoized
timestamp. -/
def stable (T T' : List (String × Target)) : Prop :=
  ∀ m t, lookupA T m = some t →
    ∃ t', lookupA T' m = some t' ∧ { t with timestamp := t'.timestamp } = t'

/-- The trivial action interpretation: the action succeeds and leaves the
state alone (used to instantiate theorems at concrete scenarios). -/
def pureOkI : Interp := fun _ _ s => (.ok (), s)

/-- An action interpretation that always fails with a BuildError (an action
whose run/error call raised), leaving the state alone. -/
def failI (e : Err) : Interp := fun _ _ s => (.error e, s)

/-- Postcondition of one build call at fuel f: the registry evolves stably,
done targets stay done, on success the built target is done with the
returned value, and a build of an already-done target is an exact no-op
returning the memoized value. -/
def BuildPost (f : Nat) (n : String) (s : PakeState) (r : Except Err Int)
    (s' : PakeState) : Prop :=
  stable s.targets s'.targets
  ∧ (∀ g m w, Done g s.targets m w → Done g s'.targets m w)
  ∧ (∀ v, r = .ok v → Done f s'.targets n v)
  ∧ (∀ g w, Done g s.targets n w → g ≤ f → r = .ok w ∧ s' = s)

/-- Postcondition of the dependency loop of build, starting from
accumulator a: stability, preservation, on success the result bounds the
accumulator and every dependency's timestamp and is attained (it is the
maximum), and the loop is an exact no-op when every dependency is already
done within the accumulator's bound. -/
def DepsPost (f : Nat) (deps : List String) (a : Int) (s : PakeState)
    (r : Except Err Int) (s₁ : PakeState) : Prop :=
  stable s.targets s₁.targets
  ∧ (∀ g m w, Done g s.targets m w → Done g s₁.targets m w)
  ∧ (∀ ts, r = .ok ts →
       a ≤ ts
       ∧ (∀ d ∈ deps, ∃ dv, Done f s₁.targets d dv ∧ dv ≤ ts)
       ∧ (ts = a ∨ ∃ d ∈ deps, ∃ dv, Done f s₁.targets d dv ∧ dv = ts))
  ∧ (∀ g w, (∀ d ∈ deps, ∃ dv, Done g s.targets d dv ∧ dv ≤ w) → g ≤ f → a ≤ w →
       (∃ ts, r = .ok ts ∧ ts ≤ w) ∧ s₁ = s)

/-- A registry/rule set where every target is registered under its own
name (no aliasing between registry keys and artifact paths): explicit
declarations and placeholders always satisfy this, and it is the intended
discipline for rule factories. -/
def Consistent (s : PakeState) : Prop :=
  (∀ m t, lookupA s.targets m = some t → t.name = m)
  ∧ (∀ r ∈ s.rules, ∀ nm mt, (r.factory nm mt).name = nm)

/-- A plain file-backed target named a, used to instantiate theorems. -/
def wTgtA : Target := { name := "a" }

/-- A one-target state: artifact a exists with mtime 5. -/
def wStA : PakeState :=
  { targets := [("a", wTgtA)],
    fs := fun m => if m = "a" then some 5 else none,
    now := 100 }

/-- The out.txt target of the spec's scenario: an action, one dependency
in.txt, nothing memoized. -/
def outTgt : Target :=
  { name := "out.txt", action := some "gen", dependencies := ["in.txt"] }

/-- The spec's scenario state: out.txt registered and absent from the
filesystem, in.txt present with mtime T0, wall clock at now. -/
def stC8 (T0 : Int) (now : Nat) : PakeState :=
  { targets := [("out.txt", outTgt)],
    fs := fun m => if m = "in.txt" then some T0 else none,
    now := now }

/-- The placeholder target that get synthesizes for in.txt. -/
def plcIn : Target := { name := "in.txt", precious := true }

/-- The scenario state after get registered the in.txt placeholder. -/
def stC8a (T0 : Int) (now : Nat) : PakeState :=
  { stC8 T0 now with targets := ("in.txt", plcIn) :: (stC8 T0 now).targets }

/-- The scenario state after in.txt was built (memoized to T0, one stat). -/
def stC8b (T0 : Int) (now : Nat) : PakeState :=
  pushEvent { stC8a T0 now with
    targets := setTS (stC8a T0 now).targets "in.txt" T0 } (.stat "in.txt")

/-- A precious target p and a cleanable target a depending on p. -/
def wTgtP : Target := { name := "p", precious := true }

/-- Target a with dependency p, for the clean scenarios. -/
def wTgtAP : Target := { name := "a", dependencies := ["p"] }

/-- Clean scenario state: a and p registered, both files present. -/
def stClean : PakeState :=
  { targets := [("a", wTgtAP), ("p", wTgtP)],
    fs := fun m => if m = "a" then some 3 else if m = "p" then some 7 else none,
    now := 50 }

/-- A rule matching names ending in .o (modelled as: any name whose match
witness function returns a value), producing a compile target. -/
def ruleO : Rule :=
  { pattern := fun nm => if nm = "x.o" then some ".o" else none,
    factory := fun nm m => { name := nm, action := some ("cc" ++ m) } }

/-- A second rule also matching x.o, to create an ambiguity. -/
def ruleO2 : Rule :=
  { pattern := fun nm => if nm = "x.o" then some "x" else none,
    factory := fun nm _ => { name := nm } }

/-- State with a single registered rule and an empty registry. -/
def stRule : PakeState :=
  { targets := [], rules := [ruleO], fs := fun _ => none, now := 0 }

/-- State with two overlapping rules and an empty registry. -/
def stAmb : PakeState :=
  { targets := [], rules := [ruleO, ruleO2], fs := fun _ => none, now := 0 }

/-- State with an empty registry and no rules. -/
def stEmpty : PakeState :=
  { targets := [], fs := fun _ => none, now := 0 }

/-- A failing target d (stale, with an action) and a parent c depending on
it, for the error-propagation scenario. -/
def wTgtD : Target := { name := "d", action := some "boom" }

/-- The parent of d. -/
def wTgtC : Target := { name := "c", dependencies := ["d"] }

/-- State registering c and d with empty filesystem. -/
def stFail : PakeState :=
  { targets := [("c", wTgtC), ("d", wTgtD)], fs := fun _ => none, now := 9 }

end Pake

namespace Pake

lemma lookupA_cons {α : Type} (k : String) (x : α) (T : List (String × α)) (n : String) :
    lookupA ((k, x) :: T) n = if k = n then some x else lookupA T n := rfl

lemma lookupA_setTS_eq {T : List (String × Target)} {n : String} {t : Target} (v : Int)
    (h : lookupA T n = some t) :
    lookupA (setTS T n v) n = some { t with timestamp := some v } := by
  induction T with
  | nil => simp [lookupA] at h
  | cons p rest ih =>
    obtain ⟨k, u⟩ := p
    by_cases hk : k = n
    · subst hk
      simp [lookupA] at h
      subst h
      simp [setTS, lookupA]
    · simp only [lookupA, if_neg hk] at h
      simp only [setTS, lookupA, if_neg hk]
      exact ih h

lemma lookupA_setTS_ne {T : List (String × Target)} {n m : String} (v : Int)
    (h : m ≠ n) : lookupA (setTS T n v) m = lookupA T m := by
  induction T with
  | nil => simp [setTS, lookupA]
  | cons p rest ih =>
    obtain ⟨k, u⟩ := p
    by_cases hk : k = m
    · subst hk
      have hkn : ¬ k = n := fun hkn => h (hkn ▸ rfl)
      simp [setTS, lookupA, if_neg hkn]
    · simp only [setTS, lookupA, if_neg hk]
      exact ih

lemma lookupA_register_of_some {T : List (String × Target)} {d m : String}
    {t : Target} (x : Target) (hd : lookupA T d = none)
    (h : lookupA T m = some t) : lookupA ((d, x) :: T) m = some t := by
  have hdm : d ≠ m := by
    rintro rfl
    rw [hd] at h
    exact Option.noConfusion h
  simpa [lookupA_cons, hdm] using h

lemma stable_refl (T : List (String × Target)) : stable T T :=
  fun m t h => ⟨t, h, rfl⟩

lemma stable_of_eq {T T' : List (String × Target)} (h : T = T') : stable T T' :=
  h ▸ stable_refl T

lemma stable_trans {T₁ T₂ T₃ : List (String × Target)}
    (h₁ : stable T₁ T₂) (h₂ : stable T₂ T₃) : stable T₁ T₃ := by
  intro m t h
  obtain ⟨t', h', e'⟩ := h₁ m t h
  obtain ⟨t'', h'', e''⟩ := h₂ m t' h'
  refine ⟨t'', h'', ?_⟩
  rw [← e'', ← e']

lemma stable_setTS (T : List (String × Target)) (n : String) (v : Int) :
    stable T (setTS T n v) := by
  intro m t h
  by_cases hm : m = n
  · subst hm
    exact ⟨{ t with timestamp := some v }, lookupA_setTS_eq v h, rfl⟩
  · exact ⟨t, by rw [lookupA_setTS_ne v hm]; exact h, rfl⟩

lemma stable_register {T : List (String × Target)} {d : String} (x : Target)
    (hd : lookupA T d = none) : stable T ((d, x) :: T) :=
  fun m t h => ⟨t, lookupA_register_of_some x hd h, rfl⟩

lemma done_mono {f g : Nat} {T : List (String × Target)} {n : String} {v : Int}
    (h : Done f T n v) (hfg : f ≤ g) : Done g T n v := by
  induction f generalizing g n v with
  | zero => exact absurd h (by simp [Done])
  | succ f ih =>
    obtain ⟨g', rfl⟩ : ∃ g', g = g' + 1 := ⟨g - 1, by omega⟩
    obtain ⟨t, hl, hts, hv, hdeps⟩ := h
    exact ⟨t, hl, hts, hv, fun d hd => by
      obtain ⟨dv, hdv, hle⟩ := hdeps d hd
      exact ⟨dv, ih hdv (by omega), hle⟩⟩

lemma done_lookup {f : Nat} {T : List (String × Target)} {n : String} {v : Int}
    (h : Done f T n v) :
    ∃ t, lookupA T n = some t ∧ t.timestamp = some v ∧ 0 ≤ v := by
  cases f with
  | zero => exact absurd h (by simp [Done])
  | succ f =>
    obtain ⟨t, hl, hts, hv, _⟩ := h
    exact ⟨t, hl, hts, hv⟩

lemma done_unique {f g : Nat} {T : List (String × Target)} {n : String}
    {v w : Int} (hv : Done f T n v) (hw : Done g T n w) : v = w := by
  obtain ⟨t, hl, hts, _⟩ := done_lookup hv
  obtain ⟨t', hl', hts', _⟩ := done_lookup hw
  rw [hl] at hl'
  cases hl'
  rw [hts] at hts'
  cases hts'
  rfl

lemma done_of_lookup_preserved {f : Nat} {T T' : List (String × Target)}
    (hp : ∀ m t, lookupA T m = some t → lookupA T' m = some t) :
    ∀ {n : String} {v : Int}, Done f T n v → Done f T' n v := by
  induction f with
  | zero => intro n v h; exact absurd h (by simp [Done])
  | succ f ih =>
    intro n v h
    obtain ⟨t, hl, hts, hv, hdeps⟩ := h
    exact ⟨t, hp n t hl, hts, hv, fun d hd => by
      obtain ⟨dv, hdv, hle⟩ := hdeps d hd
      exact ⟨dv, ih hdv, hle⟩⟩

lemma done_of_targets_eq {f : Nat} {T T' : List (String × Target)} {n : String}
    {v : Int} (he : T = T') (h : Done f T n v) : Done f T' n v := he ▸ h

lemma done_setTS_of_not_done {T : List (String × Target)} {n : String} (v : Int)
    (hn : ∀ g w, ¬ Done g T n w) :
    ∀ {f : Nat} {m : String} {w : Int}, Done f T m w → Done f (setTS T n v) m w := by
  intro f
  induction f with
  | zero => intro m w h; exact absurd h (by simp [Done])
  | succ f ih =>
    intro m w h
    obtain ⟨t, hl, hts, hv, hdeps⟩ := h
    have hm : m ≠ n := by
      rintro rfl
      exact hn (f + 1) w ⟨t, hl, hts, hv, hdeps⟩
    refine ⟨t, ?_, hts, hv, fun d hd => ?_⟩
    · rw [lookupA_setTS_ne v hm]; exact hl
    · obtain ⟨dv, hdv, hle⟩ := hdeps d hd
      exact ⟨dv, ih hdv, hle⟩

lemma done_not_memo_none {T : List (String × Target)} {n : String} {t : Target}
    (hl : lookupA T n = some t) (hts : t.timestamp = none) :
    ∀ g w, ¬ Done g T n w := by
  intro g w h
  obtain ⟨t', hl', hts', _⟩ := done_lookup h
  rw [hl] at hl'
  cases hl'
  rw [hts] at hts'
  exact Option.noConfusion hts'

end Pake

namespace Pake

lemma get_present {s : PakeState} {n : String} {t : Target}
    (h : lookupA s.targets n = some t) : get s n = (.ok t, s) := by
  simp [get, h]

lemma get_components {s : PakeState} {n : String} {r : Except Err Target}
    {s' : PakeState} (h : get s n = (r, s')) :
    (∀ m t, lookupA s.targets m = some t → lookupA s'.targets m = some t)
    ∧ s'.fs = s.fs ∧ s'.now = s.now ∧ s'.events = s.events ∧ s'.rules = s.rules := by
  unfold get at h
  rcases hl : lookupA s.targets n with _ | t
  · rw [hl] at h
    rcases hm : matchedRules s.rules n with _ | ⟨⟨rl, mt⟩, rest⟩
    · rw [hm] at h
      cases h
      exact ⟨fun m t hmt => lookupA_register_of_some _ hl hmt, rfl, rfl, rfl, rfl⟩
    · rcases rest with _ | _
      · rw [hm] at h
        cases h
        exact ⟨fun m t hmt => lookupA_register_of_some _ hl hmt, rfl, rfl, rfl, rfl⟩
      · rw [hm] at h
        cases h
        exact ⟨fun m t hmt => hmt, rfl, rfl, rfl, rfl⟩
  · rw [hl] at h
    cases h
    exact ⟨fun m t hmt => hmt, rfl, rfl, rfl, rfl⟩

lemma get_stable {s : PakeState} {n : String} {r : Except Err Target}
    {s' : PakeState} (h : get s n = (r, s')) : stable s.targets s'.targets :=
  fun m t hmt => ⟨t, (get_components h).1 m t hmt, rfl⟩

lemma get_done {s : PakeState} {n : String} {r : Except Err Target}
    {s' : PakeState} (h : get s n = (r, s')) {g : Nat} {m : String} {w : Int}
    (hd : Done g s.targets m w) : Done g s'.targets m w :=
  done_of_lookup_preserved (get_components h).1 hd

lemma buildDeps_nil {interp : Interp} {f : Nat} {dry : Bool}
    {acc : (Except Err Int) × PakeState} :
    buildDeps interp f dry acc [] = acc := rfl

lemma buildDeps_error {interp : Interp} {f : Nat} {dry : Bool} {e : Err}
    {s : PakeState} (ds : List String) :
    buildDeps interp f dry (.error e, s) ds = (.error e, s) := by
  induction ds with
  | nil => rfl
  | cons d ds ih => exact ih

lemma buildDeps_cons {interp : Interp} {f : Nat} {dry : Bool} {a : Int}
    {s : PakeState} {d : String} {ds : List String} :
    buildDeps interp f dry (.ok a, s) (d :: ds) =
      buildDeps interp f dry
        (match get s d with
         | (.error e, s₁) => (.error e, s₁)
         | (.ok _, s₁) =>
           match build interp f dry d s₁ with
           | (.error e, s₂) => (.error e, s₂)
           | (.ok dv, s₂) => (.ok (max a dv), s₂)) ds := rfl

lemma build_zero {interp : Interp} {dry : Bool} {n : String} {s : PakeState} :
    build interp 0 dry n s = (.error .fuel, s) := rfl

lemma build_succ {interp : Interp} {f : Nat} {dry : Bool} {n : String}
    {s : PakeState} :
    build interp (f+1) dry n s =
      match lookupA s.targets n with
      | none => (.error (.notRegistered n), s)
      | some t =>
        match buildDeps interp f dry (.ok 0, s) t.dependencies with
        | (.error e, s₁) => (.error e, s₁)
        | (.ok ts, s₁) => buildFinish interp dry n ts s₁ := rfl

lemma initStep_memo {n : String} {t : Target} {s₁ : PakeState} {v : Int}
    (h : t.timestamp = some v) : initStep n t s₁ = (v, s₁) := by
  simp [initStep, h]

lemma initStep_phony {n : String} {t : Target} {s₁ : PakeState}
    (h : t.timestamp = none) (hp : t.phony = true) :
    initStep n t s₁ = (-1, { s₁ with targets := setTS s₁.targets n (-1) }) := by
  simp [initStep, h, hp]

lemma initStep_file {n : String} {t : Target} {s₁ : PakeState} {mt : Int}
    (h : t.timestamp = none) (hp : t.phony = false) (hf : s₁.fs t.name = some mt) :
    initStep n t s₁ =
      (mt, pushEvent { s₁ with targets := setTS s₁.targets n mt } (.stat t.name)) := by
  simp [initStep, h, hp, hf]

lemma initStep_absent {n : String} {t : Target} {s₁ : PakeState}
    (h : t.timestamp = none) (hp : t.phony = false) (hf : s₁.fs t.name = none) :
    initStep n t s₁ =
      (-1, pushEvent { s₁ with targets := setTS s₁.targets n (-1) } (.stat t.name)) := by
  simp [initStep, h, hp, hf]

lemma not_done_of_stale {T : List (String × Target)} {n : String} {t : Target}
    {m₀ ts : Int} {f : Nat}
    (hl : lookupA T n = some t) (ht : t.timestamp = some m₀) (hst : m₀ < ts)
    (hdeps : ∀ d ∈ t.dependencies, ∃ dv, Done f T d dv ∧ dv ≤ ts)
    (hatt : ts = 0 ∨ ∃ d ∈ t.dependencies, ∃ dv, Done f T d dv ∧ dv = ts) :
    ∀ g w, ¬ Done g T n w := by
  intro g w hdone
  obtain ⟨g₀, rfl⟩ : ∃ g₀, g = g₀ + 1 := by
    cases g with
    | zero => exact absurd hdone (by simp [Done])
    | succ g₀ => exact ⟨g₀, rfl⟩
  obtain ⟨t', hl', hts', hw, hdeps'⟩ := hdone
  rw [hl] at hl'
  cases hl'
  rw [ht] at hts'
  cases hts'
  rcases hatt with rfl | ⟨d, hd, dv, hdv, rfl⟩
  · omega
  · obtain ⟨dv', hdv', hle'⟩ := hdeps' d hd
    have := done_unique hdv hdv'
    omega

lemma action_targets {interp : Interp} (hI : InterpPreserves interp)
    (act : Option String) (nm n : String) (dry : Bool) (s₂ : PakeState) :
    ((match act with
      | none => ((Except.ok ()), s₂)
      | some a =>
        if dry then (.ok (), s₂)
        else interp a n (pushEvent s₂ (.runAction nm))).2).targets = s₂.targets := by
  rcases act with _ | a
  · rfl
  · rcases dry with _ | _
    · simpa [pushEvent] using hI a n (pushEvent s₂ (.runAction nm))
    · rfl

end Pake

namespace Pake

lemma initStep_post {n : String} {t : Target} {s₁ : PakeState}
    (hl : lookupA s₁.targets n = some t) :
    stable s₁.targets ((initStep n t s₁).2).targets
    ∧ (∀ g m w, Done g s₁.targets m w → Done g ((initStep n t s₁).2).targets m w)
    ∧ (∃ t₂, lookupA ((initStep n t s₁).2).targets n = some t₂
        ∧ t₂.timestamp = some (initStep n t s₁).1
        ∧ t₂.action = t.action ∧ t₂.name = t.name
        ∧ t₂.dependencies = t.dependencies) := by
  rcases ht : t.timestamp with _ | m₀
  · have hnd := done_not_memo_none hl ht
    rcases hp : t.phony with _ | _
    · rcases hf : s₁.fs t.name with _ | mt
      · rw [initStep_absent ht hp hf]
        exact ⟨stable_setTS s₁.targets n (-1),
          fun g m w hd => done_setTS_of_not_done (-1) hnd hd,
          ⟨{ t with timestamp := some (-1) }, lookupA_setTS_eq _ hl, rfl, rfl, rfl,
            rfl⟩⟩
      · rw [initStep_file ht hp hf]
        exact ⟨stable_setTS s₁.targets n mt,
          fun g m w hd => done_setTS_of_not_done mt hnd hd,
          ⟨{ t with timestamp := some mt }, lookupA_setTS_eq _ hl, rfl, rfl, rfl,
            rfl⟩⟩
    · rw [initStep_phony ht hp]
      exact ⟨stable_setTS s₁.targets n (-1),
        fun g m w hd => done_setTS_of_not_done (-1) hnd hd,
        ⟨{ t with timestamp := some (-1) }, lookupA_setTS_eq _ hl, rfl, rfl, rfl,
          rfl⟩⟩
  · rw [initStep_memo ht]
    exact ⟨stable_refl _, fun g m w hd => hd, ⟨t, hl, ht, rfl, rfl, rfl⟩⟩

lemma buildFinish_none {interp : Interp} {dry : Bool} {n : String} {ts : Int}
    {s₁ : PakeState} (hl : lookupA s₁.targets n = none) :
    buildFinish interp dry n ts s₁ = (.error (.notRegistered n), s₁) := by
  unfold buildFinish
  rw [hl]

lemma buildFinish_some {interp : Interp} {dry : Bool} {n : String} {ts : Int}
    {s₁ : PakeState} {t : Target} {m₀ : Int} {s₂ : PakeState}
    (hl : lookupA s₁.targets n = some t) (hp0 : initStep n t s₁ = (m₀, s₂)) :
    buildFinish interp dry n ts s₁ =
      if m₀ < ts then
        (match (match t.action with
          | none => ((Except.ok ()), s₂)
          | some a =>
            if dry then (.ok (), s₂)
            else interp a n (pushEvent s₂ (.runAction t.name))) with
         | (.error e, s₃) => (.error e, s₃)
         | (.ok _, s₃) =>
           let v := if ts = 0 then ((s₃.now : Nat) : Int) else ts
           (.ok v, { s₃ with targets := setTS s₃.targets n v }))
      else (.ok m₀, s₂) := by
  unfold buildFinish
  rw [hl]
  dsimp only []
  rw [hp0]

lemma stale_post {interp : Interp} (hI : InterpPreserves interp) {dry : Bool}
    {n : String} {act : Option String} {nm : String} {ts m₀ : Int}
    {s₂ : PakeState} {t₂ : Target} {r : Except Err Int} {s' : PakeState} (f : Nat)
    (hl : lookupA s₂.targets n = some t₂) (ht : t₂.timestamp = some m₀)
    (hst : m₀ < ts) (hts : 0 ≤ ts)
    (hdeps : ∀ d ∈ t₂.dependencies, ∃ dv, Done f s₂.targets d dv ∧ dv ≤ ts)
    (hatt : ts = 0 ∨ ∃ d ∈ t₂.dependencies, ∃ dv, Done f s₂.targets d dv ∧ dv = ts)
    (heq : (match (match act with
            | none => ((Except.ok ()), s₂)
            | some a =>
              if dry then (.ok (), s₂)
              else interp a n (pushEvent s₂ (.runAction nm))) with
           | (.error e, s₃) => (.error e, s₃)
           | (.ok _, s₃) =>
             let v := if ts = 0 then ((s₃.now : Nat) : Int) else ts
             (.ok v, { s₃ with targets := setTS s₃.targets n v })) = (r, s')) :
    stable s₂.targets s'.targets
    ∧ (∀ g m w, Done g s₂.targets m w → Done g s'.targets m w)
    ∧ (∀ v, r = .ok v → Done (f+1) s'.targets n v) := by
  have hnd : ∀ g w, ¬ Done g s₂.targets n w :=
    not_done_of_stale hl ht hst hdeps hatt
  rcases hq : (match act with
      | none => ((Except.ok ()), s₂)
      | some a =>
        if dry then (.ok (), s₂)
        else interp a n (pushEvent s₂ (.runAction nm))) with ⟨qr, s₃⟩
  have htg : s₃.targets = s₂.targets := by
    have h := action_targets hI act nm n dry s₂
    rw [hq] at h
    exact h
  rw [hq] at heq
  rcases qr with e | u
  · simp only [] at heq
    cases heq
    exact ⟨stable_of_eq htg.symm, fun g m w hd => htg.symm ▸ hd,
      fun v hv => by simp at hv⟩
  · simp only [] at heq
    cases heq
    set v : Int := if ts = 0 then ((s₃.now : Nat) : Int) else ts with hv
    have hv0 : 0 ≤ v := by
      rw [hv]
      split
      · exact Int.natCast_nonneg _
      · exact hts
    have hsetTgt : setTS s₃.targets n v = setTS s₂.targets n v := by rw [htg]
    refine ⟨?_, ?_, ?_⟩
    · intro m t hmt
      obtain ⟨t', h', e'⟩ := stable_setTS s₂.targets n v m t hmt
      exact ⟨t', by simpa [hsetTgt] using h', e'⟩
    · intro g m w hd
      have := done_setTS_of_not_done v hnd hd
      simpa [hsetTgt] using this
    · intro w hw
      have hwv : w = v := by
        simp only [Except.ok.injEq] at hw
        exact hw.symm
      subst hwv
      refine ⟨{ t₂ with timestamp := some v }, ?_, rfl, hv0, ?_⟩
      · show lookupA (setTS s₃.targets n v) n = _
        rw [hsetTgt]
        exact lookupA_setTS_eq v hl
      · intro d hd
        simp only [] at hd
        obtain ⟨dv, hdv, hle⟩ := hdeps d hd
        refine ⟨dv, ?_, ?_⟩
        · have := done_setTS_of_not_done v hnd hdv
          show Done f (setTS s₃.targets n v) d dv
          rw [hsetTgt]
          exact this
        · rw [hv]
          split
          · omega
          · exact hle

lemma finish_post {interp : Interp} (hI : InterpPreserves interp) {dry : Bool}
    {n : String} {ts : Int} {s₁ : PakeState} {r : Except Err Int}
    {s' : PakeState} (f : Nat) (hts : 0 ≤ ts)
    (hdeps : ∀ t₁, lookupA s₁.targets n = some t₁ →
       (∀ d ∈ t₁.dependencies, ∃ dv, Done f s₁.targets d dv ∧ dv ≤ ts)
       ∧ (ts = 0 ∨ ∃ d ∈ t₁.dependencies, ∃ dv, Done f s₁.targets d dv ∧ dv = ts))
    (hfin : buildFinish interp dry n ts s₁ = (r, s')) :
    stable s₁.targets s'.targets
    ∧ (∀ g m w, Done g s₁.targets m w → Done g s'.targets m w)
    ∧ (∀ v, r = .ok v → Done (f+1) s'.targets n v) := by
  rcases hl : lookupA s₁.targets n with _ | t
  · rw [buildFinish_none hl] at hfin
    cases hfin
    exact ⟨stable_refl _, fun g m w hd => hd, fun v hv => by simp at hv⟩
  · obtain ⟨hdeps₁, hatt₁⟩ := hdeps t hl
    obtain ⟨hstab₂, hpre₂, t₂, hl₂, ht₂, hact₂, hnm₂, hdep₂⟩ := initStep_post hl
    rcases hp0 : initStep n t s₁ with ⟨m₀, s₂⟩
    rw [buildFinish_some hl hp0] at hfin
    rw [hp0] at hstab₂ hpre₂ hl₂ ht₂
    simp only [] at hl₂ ht₂ hstab₂ hpre₂
    have hdeps₂ : ∀ d ∈ t₂.dependencies, ∃ dv, Done f s₂.targets d dv ∧ dv ≤ ts := by
      intro d hd
      rw [hdep₂] at hd
      obtain ⟨dv, hdv, hle⟩ := hdeps₁ d hd
      exact ⟨dv, hpre₂ f d dv hdv, hle⟩
    have hatt₂ : ts = 0 ∨ ∃ d ∈ t₂.dependencies, ∃ dv, Done f s₂.targets d dv ∧ dv = ts := by
      rcases hatt₁ with h0 | ⟨d, hd, dv, hdv, he⟩
      · exact Or.inl h0
      · exact Or.inr ⟨d, by rw [hdep₂]; exact hd, dv, hpre₂ f d dv hdv, he⟩
    by_cases hst : m₀ < ts
    · rw [if_pos hst] at hfin
      have hsp := stale_post hI f hl₂ ht₂ hst hts hdeps₂ hatt₂ hfin
      exact ⟨stable_trans hstab₂ hsp.1,
        fun g m w hd => hsp.2.1 g m w (hpre₂ g m w hd), hsp.2.2⟩
    · rw [if_neg hst] at hfin
      cases hfin
      refine ⟨hstab₂, hpre₂, ?_⟩
      intro v hv
      have hvm : v = m₀ := by
        simp only [Except.ok.injEq] at hv
        exact hv.symm
      subst hvm
      refine ⟨t₂, hl₂, ht₂, by omega, ?_⟩
      intro d hd
      obtain ⟨dv, hdv, hle⟩ := hdeps₂ d hd
      exact ⟨dv, hdv, by omega⟩

end Pake

namespace Pake

lemma get_error_state {s : PakeState} {n : String} {e : Err} {s' : PakeState}
    (h : get s n = (.error e, s')) : s' = s := by
  unfold get at h
  rcases hl : lookupA s.targets n with _ | t
  · rw [hl] at h
    rcases hm : matchedRules s.rules n with _ | ⟨⟨rl, mt⟩, rest⟩
    · rw [hm] at h
      exact absurd (congrArg Prod.fst h) (by simp)
    · rcases rest with _ | _
      · rw [hm] at h
        exact absurd (congrArg Prod.fst h) (by simp)
      · rw [hm] at h
        exact (congrArg Prod.snd h).symm
  · rw [hl] at h
    exact absurd (congrArg Prod.fst h) (by simp)

lemma build_succ_none {interp : Interp} {f : Nat} {dry : Bool} {n : String}
    {s : PakeState} (hl : lookupA s.targets n = none) :
    build interp (f+1) dry n s = (.error (.notRegistered n), s) := by
  rw [build_succ, hl]

lemma build_succ_err {interp : Interp} {f : Nat} {dry : Bool} {n : String}
    {s : PakeState} {t : Target} {e : Err} {s₁ : PakeState}
    (hl : lookupA s.targets n = some t)
    (hd : buildDeps interp f dry (.ok 0, s) t.dependencies = (.error e, s₁)) :
    build interp (f+1) dry n s = (.error e, s₁) := by
  rw [build_succ, hl]
  dsimp only []
  rw [hd]

lemma build_succ_ok {interp : Interp} {f : Nat} {dry : Bool} {n : String}
    {s : PakeState} {t : Target} {ts : Int} {s₁ : PakeState}
    (hl : lookupA s.targets n = some t)
    (hd : buildDeps interp f dry (.ok 0, s) t.dependencies = (.ok ts, s₁)) :
    build interp (f+1) dry n s = buildFinish interp dry n ts s₁ := by
  rw [build_succ, hl]
  dsimp only []
  rw [hd]

lemma deps_post {interp : Interp} {f : Nat} {dry : Bool}
    (IH : ∀ n s r s', build interp f dry n s = (r, s') → BuildPost f n s r s') :
    ∀ deps a s r s₁, buildDeps interp f dry (.ok a, s) deps = (r, s₁) →
      DepsPost f deps a s r s₁ := by
  intro deps
  induction deps with
  | nil =>
    intro a s r s₁ heq
    rw [buildDeps_nil] at heq
    injection heq with h1 h2
    subst h1
    subst h2
    refine ⟨stable_refl _, fun g m w hd => hd, ?_, ?_⟩
    · intro ts hts
      injection hts with hts
      subst hts
      exact ⟨le_refl a, by simp, Or.inl rfl⟩
    · intro g w hall hgf haw
      exact ⟨⟨a, rfl, haw⟩, rfl⟩
  | cons d ds ih =>
    intro a s r s₁ heq
    rw [buildDeps_cons] at heq
    rcases hg : get s d with ⟨gr, sg⟩
    rw [hg] at heq
    rcases gr with e | tg
    · have hsg : sg = s := get_error_state hg
      dsimp only [] at heq
      rw [buildDeps_error] at heq
      injection heq with h1 h2
      subst h1
      have hs : s = s₁ := by rw [← hsg]; exact h2
      refine hs ▸ ⟨stable_refl _, fun g m w hd => hd, fun ts hts => by simp at hts, ?_⟩
      intro g w hall hgf haw
      obtain ⟨dv₀, hdv₀, _⟩ := hall d (by simp)
      obtain ⟨t', hl', _, _⟩ := done_lookup hdv₀
      have hgp := get_present hl'
      rw [hgp] at hg
      exact absurd (congrArg Prod.fst hg) (by simp)
    · dsimp only [] at heq
      rcases hb : build interp f dry d sg with ⟨br, sb⟩
      rw [hb] at heq
      have BP := IH d sg br sb hb
      rcases br with e | dv
      · dsimp only [] at heq
        rw [buildDeps_error] at heq
        injection heq with h1 h2
        subst h1
        subst h2
        refine ⟨stable_trans (get_stable hg) BP.1,
          fun g m w hd => BP.2.1 g m w (get_done hg hd),
          fun ts hts => by simp at hts, ?_⟩
        intro g w hall hgf haw
        obtain ⟨dv₀, hdv₀, hle₀⟩ := hall d (by simp)
        obtain ⟨t', hl', _, _⟩ := done_lookup hdv₀
        have hgp := get_present hl'
        rw [hgp] at hg
        injection hg with hx hy
        subst hy
        obtain ⟨habs, _⟩ := BP.2.2.2 g dv₀ hdv₀ hgf
        exact absurd habs (by simp)
      · dsimp only [] at heq
        have TL := ih (max a dv) sb r s₁ heq
        refine ⟨?_, ?_, ?_, ?_⟩
        · exact stable_trans (get_stable hg) (stable_trans BP.1 TL.1)
        · exact fun g m w hd => TL.2.1 g m w (BP.2.1 g m w (get_done hg hd))
        · intro ts hts
          obtain ⟨hle, hds, hatt⟩ := TL.2.2.1 ts hts
          have hdvdone : Done f s₁.targets d dv := TL.2.1 f d dv (BP.2.2.1 dv rfl)
          refine ⟨le_trans (le_max_left a dv) hle, ?_, ?_⟩
          · intro d' hd'
            rcases List.mem_cons.mp hd' with rfl | hmem
            · exact ⟨dv, hdvdone, le_trans (le_max_right a dv) hle⟩
            · exact hds d' hmem
          · rcases hatt with hth | ⟨d', hmem, dv', hdv', he⟩
            · rcases le_total a dv with hcase | hcase
              · have hmx : max a dv = dv := max_eq_right hcase
                exact Or.inr ⟨d, by simp, dv, hdvdone, by omega⟩
              · have hmx : max a dv = a := max_eq_left hcase
                exact Or.inl (by omega)
            · exact Or.inr ⟨d', List.mem_cons_of_mem _ hmem, dv', hdv', he⟩
        · intro g w hall hgf haw
          obtain ⟨dv₀, hdv₀, hle₀⟩ := hall d (by simp)
          obtain ⟨t', hl', _, _⟩ := done_lookup hdv₀
          have hgp := get_present hl'
          rw [hgp] at hg
          injection hg with hx hy
          subst hy
          obtain ⟨hok, hsb⟩ := BP.2.2.2 g dv₀ hdv₀ hgf
          injection hok with hdv
          subst hdv
          subst hsb
          have hmax : max a dv ≤ w := max_le haw hle₀
          obtain ⟨⟨ts', hr, hts'⟩, hs₁⟩ :=
            TL.2.2.2 g w (fun d' hd' => hall d' (List.mem_cons_of_mem _ hd')) hgf hmax
          exact ⟨⟨ts', hr, hts'⟩, hs₁⟩

theorem build_master {interp : Interp} (hI : InterpPreserves interp) :
    ∀ f dry n s r s', build interp f dry n s = (r, s') → BuildPost f n s r s' := by
  intro f
  induction f with
  | zero =>
    intro dry n s r s' heq
    rw [build_zero] at heq
    injection heq with h1 h2
    subst h1
    subst h2
    refine ⟨stable_refl _, fun g m w hd => hd, fun v hv => by simp at hv, ?_⟩
    intro g w hdone hg
    have hg0 : g = 0 := Nat.le_zero.mp hg
    subst hg0
    exact absurd hdone (by simp [Done])
  | succ f ihf =>
    intro dry n s r s' heq
    rcases hl : lookupA s.targets n with _ | t
    · rw [build_succ_none hl] at heq
      injection heq with h1 h2
      subst h1
      subst h2
      refine ⟨stable_refl _, fun g m w hd => hd, fun v hv => by simp at hv, ?_⟩
      intro g w hdone _
      obtain ⟨t', hl', _, _⟩ := done_lookup hdone
      rw [hl] at hl'
      exact absurd hl' (by simp)
    · rcases hd : buildDeps interp f dry (.ok 0, s) t.dependencies with ⟨dr, s₁⟩
      have DP := deps_post (fun n s r s' h => ihf dry n s r s' h)
        t.dependencies 0 s dr s₁ hd
      rcases dr with e | ts
      · rw [build_succ_err hl hd] at heq
        injection heq with h1 h2
        subst h1
        subst h2
        refine ⟨DP.1, DP.2.1, fun v hv => by simp at hv, ?_⟩
        intro g w hdone hg
        obtain ⟨g₀, rfl⟩ : ∃ g₀, g = g₀ + 1 := by
          cases g with
          | zero => exact absurd hdone (by simp [Done])
          | succ g₀ => exact ⟨g₀, rfl⟩
        obtain ⟨t', hl', hts', hw, hdeps'⟩ := hdone
        rw [hl] at hl'
        injection hl' with ht'
        subst ht'
        obtain ⟨⟨ts', habs, _⟩, _⟩ := DP.2.2.2 g₀ w hdeps' (by omega) hw
        exact absurd habs (by simp)
      · rw [build_succ_ok hl hd] at heq
        obtain ⟨h0ts, hdeps₁, hatt₁⟩ := DP.2.2.1 ts rfl
        have hdepsFor : ∀ t₁, lookupA s₁.targets n = some t₁ →
            (∀ d ∈ t₁.dependencies, ∃ dv, Done f s₁.targets d dv ∧ dv ≤ ts)
            ∧ (ts = 0 ∨ ∃ d ∈ t₁.dependencies, ∃ dv, Done f s₁.targets d dv ∧ dv = ts) := by
          intro t₁ hl₁
          obtain ⟨t₁', hl₁', he⟩ := DP.1 n t hl
          rw [hl₁] at hl₁'
          injection hl₁' with ht₁
          subst ht₁
          have hdep : t₁.dependencies = t.dependencies := by rw [← he]
          constructor
          · intro d hd
            rw [hdep] at hd
            exact hdeps₁ d hd
          · rcases hatt₁ with h0 | ⟨d, hmem, dv, hdv, hev⟩
            · exact Or.inl h0
            · exact Or.inr ⟨d, by rw [hdep]; exact hmem, dv, hdv, hev⟩
        have FP := finish_post hI f h0ts hdepsFor heq
        refine ⟨stable_trans DP.1 FP.1,
          fun g m w hd => FP.2.1 g m w (DP.2.1 g m w hd), FP.2.2, ?_⟩
        intro g w hdone hg
        obtain ⟨g₀, rfl⟩ : ∃ g₀, g = g₀ + 1 := by
          cases g with
          | zero => exact absurd hdone (by simp [Done])
          | succ g₀ => exact ⟨g₀, rfl⟩
        obtain ⟨t', hl', hts', hw, hdeps'⟩ := hdone
        rw [hl] at hl'
        injection hl' with ht'
        subst ht'
        obtain ⟨⟨ts', hr, hts'w⟩, hs₁⟩ := DP.2.2.2 g₀ w hdeps' (by omega) hw
        injection hr with hts2
        subst hts2
        subst hs₁
        rw [buildFinish_some hl (initStep_memo hts')] at heq
        rw [if_neg (by omega : ¬ w < ts)] at heq
        injection heq with h1 h2
        subst h1
        subst h2
        exact ⟨rfl, rfl⟩

end Pake

namespace Pake

lemma initStep_now (n : String) (t : Target) (s₁ : PakeState) :
    ((initStep n t s₁).2).now = s₁.now := by
  rcases ht : t.timestamp with _ | v
  · rcases hp : t.phony with _ | _
    · rcases hf : s₁.fs t.name with _ | mt
      · simp [initStep_absent ht hp hf, pushEvent]
      · simp [initStep_file ht hp hf, pushEvent]
    · simp [initStep_phony ht hp]
  · simp [initStep_memo ht]

lemma update_eq_of_stable {t₁ t' : Target}
    (he : { t₁ with timestamp := t'.timestamp } = t') (v : Option Int) :
    { t' with timestamp := v } = { t₁ with timestamp := v } := by
  cases t₁
  cases t'
  simp only [Target.mk.injEq] at he
  simp [he.1, he.2.1, he.2.2.1, he.2.2.2.1, he.2.2.2.2.1, he.2.2.2.2.2.1,
    he.2.2.2.2.2.2.1]

/-- C2: within one build session, once a target's timestamp has been
computed by build, an immediate repeated build of that target (and, since
build revisits shared dependencies through the same memoized state, any
repeated visit in a diamond graph) is an exact no-op: it returns the same
memoized timestamp, leaves the state — in particular the event trace —
unchanged, so the artifact is not re-statted and the action is not
re-run. -/
theorem build_memoized {interp : Interp} {f : Nat} {dry : Bool} {n : String}
    {s s' : PakeState} {v : Int} (hI : InterpPreserves interp)
    (hb : build interp f dry n s = (.ok v, s')) :
    build interp f dry n s' = (.ok v, s')
    ∧ ((build interp f dry n s').2).events = s'.events := by
  have BP := build_master hI f dry n s _ _ hb
  have hdone : Done f s'.targets n v := BP.2.2.1 v rfl
  rcases hb2 : build interp f dry n s' with ⟨r₂, s₂⟩
  have BP2 := build_master hI f dry n s' r₂ s₂ hb2
  obtain ⟨hok, hs⟩ := BP2.2.2.2 f v hdone (le_refl f)
  subst hok
  subst hs
  exact ⟨rfl, rfl⟩

/-- Witness for C2 at a concrete one-target state: after building target a
once (memoizing mtime 5), rebuilding returns 5 and changes nothing. -/
theorem build_memoized_witness :
    build pureOkI 1 false "a" (build pureOkI 1 false "a" wStA).2 =
      (.ok 5, (build pureOkI 1 false "a" wStA).2)
    ∧ ((build pureOkI 1 false "a" (build pureOkI 1 false "a" wStA).2).2).events =
      ((build pureOkI 1 false "a" wStA).2).events :=
  @build_memoized pureOkI 1 false "a" wStA ((build pureOkI 1 false "a" wStA).2) 5
    (fun _ _ _ => rfl) rfl

/-- C1: Target.build first folds the maximum over the recursively built
dependencies starting from 0 (so 0 with no dependencies); every dependency
ends up done below that maximum ts, which is attained; the target is then
stale exactly when its memoized-on-first-visit timestamp is strictly below
ts: when not stale the memoized value is returned with no action run, and
when stale the action runs (when present and not a dry run) and the
memoized timestamp is set to ts — or to the wall clock when ts is zero —
and that value is returned. -/
theorem build_staleness_spec {interp : Interp} {f : Nat} {dry : Bool}
    {n : String} {s : PakeState} {t₀ : Target} {ts : Int} {s₁ : PakeState}
    {t₁ : Target} (hI : InterpPreserves interp)
    (ht : lookupA s.targets n = some t₀)
    (hd : buildDeps interp f dry (.ok 0, s) t₀.dependencies = (.ok ts, s₁))
    (h₁ : lookupA s₁.targets n = some t₁) :
    (t₀.dependencies = [] → ts = 0 ∧ s₁ = s)
    ∧ (∀ d ∈ t₀.dependencies, ∃ dv, Done f s₁.targets d dv ∧ dv ≤ ts)
    ∧ (0 ≤ ts ∧
        (ts = 0 ∨ ∃ d ∈ t₀.dependencies, ∃ dv, Done f s₁.targets d dv ∧ dv = ts))
    ∧ (¬ (initStep n t₁ s₁).1 < ts →
        build interp (f+1) dry n s =
          (.ok (initStep n t₁ s₁).1, (initStep n t₁ s₁).2))
    ∧ ((∀ a m u, interp a m u = (.ok (), u)) → (initStep n t₁ s₁).1 < ts →
        ∃ v s₂, build interp (f+1) dry n s = (.ok v, s₂)
          ∧ v = (if ts = 0 then ((s₁.now : Nat) : Int) else ts)
          ∧ lookupA s₂.targets n = some { t₁ with timestamp := some v }
          ∧ ((∃ a, t₁.action = some a) → dry = false →
              s₂.events = ((initStep n t₁ s₁).2).events ++ [.runAction t₁.name])
          ∧ (t₁.action = none ∨ dry = true →
              s₂.events = ((initStep n t₁ s₁).2).events)) := by
  have DP := deps_post (fun n s r s' h => build_master hI f dry n s r s' h)
    t₀.dependencies 0 s (.ok ts) s₁ hd
  obtain ⟨h0ts, hdeps₁, hatt₁⟩ := DP.2.2.1 ts rfl
  refine ⟨?_, hdeps₁, ⟨h0ts, hatt₁⟩, ?_, ?_⟩
  · intro hnil
    rw [hnil, buildDeps_nil] at hd
    injection hd with h1 h2
    injection h1 with h0
    exact ⟨h0.symm, h2.symm⟩
  · intro hst
    rcases hp0 : initStep n t₁ s₁ with ⟨m₀, s₂⟩
    have hst' : ¬ m₀ < ts := by rw [hp0] at hst; exact hst
    rw [build_succ_ok ht hd, buildFinish_some h₁ hp0, if_neg hst']
  · intro hpure hst
    rcases hp0 : initStep n t₁ s₁ with ⟨m₀, s₂⟩
    have hst' : m₀ < ts := by rw [hp0] at hst; exact hst
    have hstab := (initStep_post h₁).1
    rw [hp0] at hstab
    obtain ⟨t', hlt', he'⟩ := hstab n t₁ h₁
    have hnow : s₂.now = s₁.now := by
      have h := initStep_now n t₁ s₁
      rw [hp0] at h
      exact h
    rw [build_succ_ok ht hd, buildFinish_some h₁ hp0, if_pos hst']
    rcases hac : t₁.action with _ | a
    · dsimp only []
      rw [hnow]
      refine ⟨_, _, rfl, rfl, ?_, ?_, ?_⟩
      · show lookupA (setTS s₂.targets n _) n = _
        rw [lookupA_setTS_eq _ hlt', update_eq_of_stable he', hac]
      · rintro ⟨a, ha⟩ _
        exact absurd ha (by simp)
      · intro _
        rfl
    · cases dry
      · dsimp only []
        rw [if_neg (by simp), hpure a n (pushEvent s₂ (.runAction t₁.name))]
        dsimp only [pushEvent]
        rw [hnow]
        refine ⟨_, _, rfl, rfl, ?_, ?_, ?_⟩
        · show lookupA (setTS s₂.targets n _) n = _
          rw [lookupA_setTS_eq _ hlt', update_eq_of_stable he', hac]
        · intro _ _
          rfl
        · rintro (h | h)
          · exact absurd h (by simp)
          · exact absurd h (by simp)
      · dsimp only []
        rw [if_pos rfl]
        dsimp only []
        rw [hnow]
        refine ⟨_, _, rfl, rfl, ?_, ?_, ?_⟩
        · show lookupA (setTS s₂.targets n _) n = _
          rw [lookupA_setTS_eq _ hlt', update_eq_of_stable he', hac]
        · intro _ h
          exact absurd h (by simp)
        · intro _
          rfl

end Pake

namespace Pake

/-- Witness for C1 at the concrete scenario (T0 = 5, clock 10): the
dependency is done below the maximum 5; out.txt is stale, its action runs,
its memoized timestamp becomes 5 (the maximum, not the clock) and 5 is
returned. -/
theorem build_staleness_spec_witness :
    ∃ v s₂, build pureOkI 2 false "out.txt" (stC8 5 10) = (.ok v, s₂)
      ∧ v = 5
      ∧ lookupA s₂.targets "out.txt" = some { outTgt with timestamp := some 5 }
      ∧ s₂.events = [.stat "in.txt", .stat "out.txt", .runAction "out.txt"] := by
  obtain ⟨v, s₂, h1, h2, h3, h4, _⟩ :=
    (build_staleness_spec (fun _ _ _ => rfl)
      (rfl : lookupA (stC8 5 10).targets "out.txt" = some outTgt)
      (rfl : buildDeps pureOkI 1 false (.ok 0, stC8 5 10) outTgt.dependencies
        = (.ok 5, stC8b 5 10))
      (rfl : lookupA (stC8b 5 10).targets "out.txt" = some outTgt)).2.2.2.2
      (fun _ _ _ => rfl) (by decide)
  have hv : v = 5 := by simpa using h2
  subst hv
  refine ⟨5, s₂, h1, rfl, h3, ?_⟩
  have he := h4 ⟨"gen", rfl⟩ rfl
  rw [he]
  rfl

/-- Counterexample for C8: with T0 = 5 and wall clock 10, build returns
timestamp 5, not max(T0, now) = 10 as the claim states. -/
theorem build_scenario_cex :
    (build pureOkI 2 false "out.txt" (stC8 5 10)).1 = .ok 5
    ∧ (5 : Int) ≠ max 5 10 := ⟨rfl, by decide⟩

/-- C8 (amended): in the scenario — out.txt depends on in.txt (present
with mtime T0 > 0), out.txt absent — build on out.txt runs its action and
returns T0, the maximum dependency timestamp; the wall clock is used only
when that maximum is zero. -/
theorem build_scenario_returns_T0 {T0 : Int} {now : Nat} (h : 0 < T0) :
    (build pureOkI 2 false "out.txt" (stC8 T0 now)).1 = .ok T0
    ∧ Event.runAction "out.txt" ∈
        ((build pureOkI 2 false "out.txt" (stC8 T0 now)).2).events := by
  have hne : ¬ T0 < 0 := by omega
  have h0 : ¬ T0 = 0 := by omega
  have hget : get (stC8 T0 now) "in.txt" = (.ok plcIn, stC8a T0 now) := rfl
  have hbin : build pureOkI 1 false "in.txt" (stC8a T0 now) =
      (.ok T0, stC8b T0 now) := by
    rw [build_succ_ok (rfl : lookupA (stC8a T0 now).targets "in.txt" = some plcIn)
      (rfl : buildDeps pureOkI 0 false (.ok 0, stC8a T0 now) plcIn.dependencies
        = (.ok 0, stC8a T0 now))]
    rw [buildFinish_some (rfl : lookupA (stC8a T0 now).targets "in.txt" = some plcIn)
      (initStep_file rfl rfl (rfl : (stC8a T0 now).fs plcIn.name = some T0))]
    rw [if_neg hne]
    rfl
  have hd : buildDeps pureOkI 1 false (.ok 0, stC8 T0 now) outTgt.dependencies
      = (.ok T0, stC8b T0 now) := by
    show buildDeps pureOkI 1 false (.ok 0, stC8 T0 now) ["in.txt"] = _
    rw [buildDeps_cons, hget]
    dsimp only []
    rw [hbin]
    dsimp only []
    rw [buildDeps_nil]
    rw [max_eq_right h.le]
  have hstale : (initStep "out.txt" outTgt (stC8b T0 now)).1 < T0 := by
    rw [initStep_absent rfl rfl (rfl : (stC8b T0 now).fs outTgt.name = none)]
    dsimp only []
    omega
  obtain ⟨v, s₂, hb, hv, hlk, hev, _⟩ :=
    (build_staleness_spec (fun _ _ _ => rfl)
      (rfl : lookupA (stC8 T0 now).targets "out.txt" = some outTgt) hd
      (rfl : lookupA (stC8b T0 now).targets "out.txt" = some outTgt)).2.2.2.2
      (fun _ _ _ => rfl) hstale
  rw [if_neg h0] at hv
  subst hv
  have he := hev ⟨"gen", rfl⟩ rfl
  rw [hb]
  exact ⟨rfl, by rw [he]; simp [outTgt]⟩

/-- Witness for the amended C8 at T0 = 5, clock 10. -/
theorem build_scenario_returns_T0_witness :
    (build pureOkI 2 false "out.txt" (stC8 5 10)).1 = .ok 5
    ∧ Event.runAction "out.txt" ∈
        ((build pureOkI 2 false "out.txt" (stC8 5 10)).2).events :=
  build_scenario_returns_T0 (by decide)

end Pake

namespace Pake

lemma clean_zero {really recurse : Bool} {n : String} {s : PakeState} :
    clean 0 really recurse n s = (.error .fuel, s) := rfl

lemma clean_succ {f : Nat} {really recurse : Bool} {n : String} {s : PakeState} :
    clean (f+1) really recurse n s =
      match lookupA s.targets n with
      | none => (.error (.notRegistered n), s)
      | some t =>
        let s₁ :=
          if (t.cleanFlag || really) && !t.precious then
            pushEvent { s with fs := updateFS s.fs t.name none } (.removeFile t.name)
          else s
        if recurse then cleanDeps f really recurse (.ok (), s₁) t.dependencies
        else (.ok (), s₁) := rfl

lemma cleanDeps_nil {f : Nat} {really recurse : Bool}
    {acc : (Except Err Unit) × PakeState} :
    cleanDeps f really recurse acc [] = acc := rfl

lemma cleanDeps_error {f : Nat} {really recurse : Bool} {e : Err}
    {s : PakeState} (ds : List String) :
    cleanDeps f really recurse (.error e, s) ds = (.error e, s) := by
  induction ds with
  | nil => rfl
  | cons d ds ih => exact ih

lemma cleanDeps_cons {f : Nat} {really recurse : Bool} {s : PakeState}
    {d : String} {ds : List String} :
    cleanDeps f really recurse (.ok (), s) (d :: ds) =
      cleanDeps f really recurse
        (match get s d with
         | (.error e, s₁) => (.error e, s₁)
         | (.ok _, s₁) => clean f really recurse d s₁) ds := rfl

lemma matchedRules_mem {rs : List Rule} {nm : String} {rl : Rule} {mt : String}
    (h : (rl, mt) ∈ matchedRules rs nm) : rl ∈ rs := by
  unfold matchedRules at h
  rw [List.mem_filterMap] at h
  obtain ⟨r, hr, he⟩ := h
  rcases hp : r.pattern nm with _ | m
  · rw [hp] at he
    simp at he
  · rw [hp] at he
    simp only [Option.map_some'] at he
    injection he with he'
    cases he'
    exact hr

lemma get_consistent {s : PakeState} {n : String} {r : Except Err Target}
    {s' : PakeState} (h : get s n = (r, s')) (hc : Consistent s) :
    Consistent s' := by
  unfold get at h
  rcases hl : lookupA s.targets n with _ | t
  · rw [hl] at h
    rcases hm : matchedRules s.rules n with _ | ⟨⟨rl, mt⟩, rest⟩
    · rw [hm] at h
      injection h with h1 h2
      subst h2
      refine ⟨?_, hc.2⟩
      intro m t hmt
      rw [lookupA_cons] at hmt
      split at hmt
      · injection hmt with ht
        subst ht
        simp_all
      · exact hc.1 m t hmt
    · rcases rest with _ | _
      · rw [hm] at h
        injection h with h1 h2
        subst h2
        refine ⟨?_, hc.2⟩
        intro m t hmt
        rw [lookupA_cons] at hmt
        split at hmt
        · injection hmt with ht
          subst ht
          have hmm : (rl, mt) ∈ matchedRules s.rules n := by
            rw [hm]
            exact List.mem_singleton_self _
          have hmem : rl ∈ s.rules := matchedRules_mem hmm
          rename_i hnm
          rw [← hnm]
          exact hc.2 rl hmem n mt
        · exact hc.1 m t hmt
      · rw [hm] at h
        injection h with h1 h2
        subst h2
        exact hc
  · rw [hl] at h
    injection h with h1 h2
    subst h2
    exact hc

lemma events_chain {s₁ s₂ s₃ : PakeState} {x : Event}
    (h12 : ∀ e ∈ s₂.events, e ∈ s₁.events ∨ e ≠ x)
    (h23 : ∀ e ∈ s₃.events, e ∈ s₂.events ∨ e ≠ x) :
    ∀ e ∈ s₃.events, e ∈ s₁.events ∨ e ≠ x := by
  intro e he
  rcases h23 e he with h | h
  · exact h12 e h
  · exact Or.inr h

lemma clean_master : ∀ f (really recurse : Bool) (n : String) (s : PakeState)
    (r : Except Err Unit) (s' : PakeState), Consistent s →
    clean f really recurse n s = (r, s') →
    Consistent s'
    ∧ (∀ m t, lookupA s.targets m = some t → lookupA s'.targets m = some t)
    ∧ (∀ p tp, lookupA s.targets p = some tp → tp.precious = true →
        s'.fs p = s.fs p
        ∧ ∀ e ∈ s'.events, e ∈ s.events ∨ e ≠ Event.removeFile p) := by
  intro f
  induction f with
  | zero =>
    intro really recurse n s r s' hc heq
    rw [clean_zero] at heq
    injection heq with h1 h2
    subst h2
    exact ⟨hc, fun m t h => h, fun p tp _ _ => ⟨rfl, fun e he => Or.inl he⟩⟩
  | succ f ihf =>
    have fold_master : ∀ (really recurse : Bool) (deps : List String)
        (s₀ : PakeState) (r : Except Err Unit) (s' : PakeState), Consistent s₀ →
        cleanDeps f really recurse (.ok (), s₀) deps = (r, s') →
        Consistent s'
        ∧ (∀ m t, lookupA s₀.targets m = some t → lookupA s'.targets m = some t)
        ∧ (∀ p tp, lookupA s₀.targets p = some tp → tp.precious = true →
            s'.fs p = s₀.fs p
            ∧ ∀ e ∈ s'.events, e ∈ s₀.events ∨ e ≠ Event.removeFile p) := by
      intro really recurse deps
      induction deps with
      | nil =>
        intro s₀ r s' hc heq
        rw [cleanDeps_nil] at heq
        injection heq with h1 h2
        subst h2
        exact ⟨hc, fun m t h => h, fun p tp _ _ => ⟨rfl, fun e he => Or.inl he⟩⟩
      | cons d ds ihd =>
        intro s₀ r s' hc heq
        rw [cleanDeps_cons] at heq
        rcases hg : get s₀ d with ⟨gr, sg⟩
        rw [hg] at heq
        rcases gr with e | tg
        · dsimp only [] at heq
          rw [cleanDeps_error] at heq
          injection heq with h1 h2
          have hsg : sg = s₀ := get_error_state hg
          subst h2
          subst hsg
          exact ⟨hc, fun m t h => h, fun p tp _ _ => ⟨rfl, fun e he => Or.inl he⟩⟩
        · dsimp only [] at heq
          have hgc := get_consistent hg hc
          have hgl := (get_components hg).1
          have hgfs := (get_components hg).2.1
          have hgev := (get_components hg).2.2.2.1
          rcases hcl : clean f really recurse d sg with ⟨cr, sc⟩
          rw [hcl] at heq
          obtain ⟨hcc, hcl2, hcp⟩ := ihf really recurse d sg cr sc hgc hcl
          rcases cr with e | u
          · rw [cleanDeps_error] at heq
            injection heq with h1 h2
            subst h2
            refine ⟨hcc, fun m t h => hcl2 m t (hgl m t h), ?_⟩
            intro p tp hp hprec
            obtain ⟨hfs, hev⟩ := hcp p tp (hgl p tp hp) hprec
            refine ⟨by rw [hfs, hgfs], ?_⟩
            intro e he
            rcases hev e he with h | h
            · rw [hgev] at h
              exact Or.inl h
            · exact Or.inr h
          · obtain ⟨htc, htl, htp⟩ := ihd sc r s' hcc heq
            refine ⟨htc, fun m t h => htl m t (hcl2 m t (hgl m t h)), ?_⟩
            intro p tp hp hprec
            obtain ⟨hfs1, hev1⟩ := hcp p tp (hgl p tp hp) hprec
            obtain ⟨hfs2, hev2⟩ := htp p tp (hcl2 p tp (hgl p tp hp)) hprec
            refine ⟨by rw [hfs2, hfs1, hgfs], ?_⟩
            intro e he
            rcases hev2 e he with h | h
            · rcases hev1 e h with h' | h'
              · rw [hgev] at h'
                exact Or.inl h'
              · exact Or.inr h'
            · exact Or.inr h
    intro really recurse n s r s' hc heq
    rw [clean_succ] at heq
    rcases hl : lookupA s.targets n with _ | t
    · rw [hl] at heq
      injection heq with h1 h2
      subst h2
      exact ⟨hc, fun m t h => h, fun p tp _ _ => ⟨rfl, fun e he => Or.inl he⟩⟩
    · rw [hl] at heq
      dsimp only [] at heq
      rcases hcond : (t.cleanFlag || really) && !t.precious with _ | _
      · rw [hcond, if_neg Bool.false_ne_true] at heq
        rcases hrec : recurse with _ | _
        · rw [hrec, if_neg Bool.false_ne_true] at heq
          injection heq with h1 h2
          subst h2
          exact ⟨hc, fun m t h => h, fun p tp _ _ => ⟨rfl, fun e he => Or.inl he⟩⟩
        · rw [hrec, if_pos rfl] at heq
          exact fold_master really true t.dependencies s r s' hc heq
      · rw [hcond, if_pos rfl] at heq
        have hnp : n ≠ t.name → False := by
          intro hne
          exact hne (hc.1 n t hl).symm
        have htn : t.name = n := hc.1 n t hl
        have hprec_ne : ∀ p tp, lookupA s.targets p = some tp →
            tp.precious = true → p ≠ n := by
          intro p tp hp hprec hpn
          subst hpn
          rw [hl] at hp
          injection hp with hp'
          subst hp'
          rw [hprec] at hcond
          simp at hcond
        set s₁ := pushEvent { s with fs := updateFS s.fs t.name none }
          (.removeFile t.name) with hs₁
        have hstep : ∀ p tp, lookupA s.targets p = some tp → tp.precious = true →
            s₁.fs p = s.fs p
            ∧ ∀ e ∈ s₁.events, e ∈ s.events ∨ e ≠ Event.removeFile p := by
          intro p tp hp hprec
          have hpn := hprec_ne p tp hp hprec
          constructor
          · show updateFS s.fs t.name none p = s.fs p
            unfold updateFS
            rw [if_neg (by rw [htn]; exact hpn)]
          · intro e he
            simp only [hs₁, pushEvent, List.mem_append, List.mem_singleton] at he
            rcases he with h | h
            · exact Or.inl h
            · subst h
              refine Or.inr ?_
              intro hcontra
              injection hcontra with hnm
              rw [htn] at hnm
              exact hpn hnm.symm
        have hs₁c : Consistent s₁ := ⟨hc.1, hc.2⟩
        have hs₁l : ∀ m t', lookupA s.targets m = some t' →
            lookupA s₁.targets m = some t' := fun m t' h => h
        rcases hrec : recurse with _ | _
        · rw [hrec, if_neg Bool.false_ne_true] at heq
          injection heq with h1 h2
          subst h2
          exact ⟨hs₁c, hs₁l, hstep⟩
        · rw [hrec, if_pos rfl] at heq
          obtain ⟨htc, htl, htp⟩ := fold_master really true t.dependencies s₁ r s' hs₁c heq
          refine ⟨htc, fun m t' h => htl m t' (hs₁l m t' h), ?_⟩
          intro p tp hp hprec
          obtain ⟨hfs1, hev1⟩ := hstep p tp hp hprec
          obtain ⟨hfs2, hev2⟩ := htp p tp (hs₁l p tp hp) hprec
          refine ⟨by rw [hfs2, hfs1], ?_⟩
          intro e he
          rcases hev2 e he with h | h
          · exact hev1 e h
          · exact Or.inr h

end Pake

namespace Pake

/-- C3: clean attempts the deletion exactly when (the clean flag or really)
holds and the target is not precious — then the artifact is gone and the
removal attempt is traced (an already-absent artifact raises nothing) —
and otherwise the state is untouched; moreover a precious target's
artifact survives any clean, recursive or not, forced or not, in any
consistently keyed registry. -/
theorem clean_spec :
    (∀ f (really : Bool) n s t, lookupA s.targets n = some t →
      (clean (f+1) really false n s).1 = .ok ()
      ∧ (((t.cleanFlag || really) && !t.precious) = true →
          ((clean (f+1) really false n s).2).fs t.name = none
          ∧ ((clean (f+1) really false n s).2).events
              = s.events ++ [.removeFile t.name])
      ∧ (((t.cleanFlag || really) && !t.precious) = false →
          (clean (f+1) really false n s).2 = s)
      ∧ (t.precious = true → (clean (f+1) really false n s).2 = s))
    ∧ (∀ f (really recurse : Bool) n s r s', Consistent s →
        clean f really recurse n s = (r, s') →
        ∀ p tp, lookupA s.targets p = some tp → tp.precious = true →
          s'.fs p = s.fs p
          ∧ ∀ e ∈ s'.events, e ∈ s.events ∨ e ≠ Event.removeFile p) := by
  constructor
  · intro f really n s t hl
    have hcl : clean (f+1) really false n s =
        (.ok (), if (t.cleanFlag || really) && !t.precious then
          pushEvent { s with fs := updateFS s.fs t.name none }
            (.removeFile t.name)
          else s) := by
      rw [clean_succ, hl]
      dsimp only []
      rw [if_neg Bool.false_ne_true]
    refine ⟨by rw [hcl], ?_, ?_, ?_⟩
    · intro hcond
      rw [hcl, if_pos hcond]
      exact ⟨by simp [pushEvent, updateFS], by simp [pushEvent]⟩
    · intro hcond
      rw [hcl, if_neg (by simp [hcond])]
    · intro hprec
      have hcond : ((t.cleanFlag || really) && !t.precious) = false := by
        rw [hprec]
        simp
      rw [hcl, if_neg (by simp [hcond])]
  · intro f really recurse n s r s' hc heq p tp hp hprec
    exact (clean_master f really recurse n s r s' hc heq).2.2 p tp hp hprec

/-- Witness for C3: a plain clean removes the default target a's artifact;
a forced recursive clean of a leaves the precious dependency p's artifact
in place. -/
theorem clean_spec_witness :
    ((clean 1 false false "a" stClean).2).fs "a" = none
    ∧ ((clean 2 true true "a" stClean).2).fs "p" = some 7 := by
  have hcons : Consistent stClean := by
    constructor
    · intro m t h
      have h' : lookupA [("a", wTgtAP), ("p", wTgtP)] m = some t := h
      rw [lookupA_cons] at h'
      split at h'
      · injection h' with h''
        subst h''
        rename_i hm
        exact hm.symm ▸ rfl
      · rw [lookupA_cons] at h'
        split at h'
        · injection h' with h''
          subst h''
          rename_i hm
          exact hm.symm ▸ rfl
        · simp [lookupA] at h'
    · intro r hr
      simp [stClean] at hr
  constructor
  · exact ((clean_spec.1 0 false "a" stClean wTgtAP rfl).2.1 rfl).1
  · have h := (clean_spec.2 2 true true "a" stClean
      (clean 2 true true "a" stClean).1 (clean 2 true true "a" stClean).2
      hcons rfl "p" wTgtP rfl rfl).1
    rw [h]
    rfl

/-- C4: get returns the memoized target for any registered name; for an
unregistered name with exactly one matching rule it invokes the factory
with the name and match, registers the result under the name and returns
it, and a subsequent get on the same name returns that same registered
instance with the registry unchanged; with no matching rule it registers
and returns a placeholder with no action and precious set. -/
theorem get_rule_resolution :
    (∀ s n t, lookupA s.targets n = some t → get s n = (.ok t, s))
    ∧ (∀ s n rl mt, lookupA s.targets n = none →
        matchedRules s.rules n = [(rl, mt)] →
        get s n = (.ok (rl.factory n mt),
          { s with targets := (n, rl.factory n mt) :: s.targets })
        ∧ get { s with targets := (n, rl.factory n mt) :: s.targets } n
            = (.ok (rl.factory n mt),
               { s with targets := (n, rl.factory n mt) :: s.targets }))
    ∧ (∀ s n, lookupA s.targets n = none → matchedRules s.rules n = [] →
        get s n = (.ok ({ name := n, precious := true } : Target),
          { s with targets := (n, { name := n, precious := true }) :: s.targets })
        ∧ ({ name := n, precious := true } : Target).action = none
        ∧ ({ name := n, precious := true } : Target).precious = true
        ∧ get { s with
              targets := (n, ({ name := n, precious := true } : Target)) :: s.targets } n
            = (.ok ({ name := n, precious := true } : Target),
               { s with
                 targets := (n, ({ name := n, precious := true } : Target)) :: s.targets })) := by
  refine ⟨fun s n t hl => get_present hl, ?_, ?_⟩
  · intro s n rl mt hl hm
    constructor
    · unfold get
      rw [hl, hm]
    · exact get_present (by rw [lookupA_cons, if_pos rfl])
  · intro s n hl hm
    refine ⟨?_, rfl, rfl, ?_⟩
    · unfold get
      rw [hl, hm]
    · exact get_present (by rw [lookupA_cons, if_pos rfl])

/-- Witness for C4: the .o rule synthesizes x.o through its factory, and an
unmatched name z synthesizes the precious placeholder. -/
theorem get_rule_resolution_witness :
    get stRule "x.o" = (.ok (ruleO.factory "x.o" ".o"),
      { stRule with targets := ("x.o", ruleO.factory "x.o" ".o") :: stRule.targets })
    ∧ get stEmpty "z" = (.ok ({ name := "z", precious := true } : Target),
        { stEmpty with
          targets := ("z", ({ name := "z", precious := true } : Target)) :: stEmpty.targets }) :=
  ⟨(get_rule_resolution.2.1 stRule "x.o" ruleO ".o" rfl rfl).1,
   (get_rule_resolution.2.2 stEmpty "z" rfl rfl).1⟩

/-- C5: resolving an unregistered name whose pattern search matches two or
more rules raises AmbiguousRuleError carrying that name and leaves the
state — in particular the registry — exactly unchanged. -/
theorem get_ambiguous :
    ∀ s n rl₁ mt₁ rl₂ mt₂ rest, lookupA s.targets n = none →
      matchedRules s.rules n = (rl₁, mt₁) :: (rl₂, mt₂) :: rest →
      get s n = (.error (.ambiguousRule n), s) := by
  intro s n rl₁ mt₁ rl₂ mt₂ rest hl hm
  unfold get
  rw [hl, hm]

/-- Witness for C5: x.o matches both registered rules, so get fails with
the ambiguity error and registers nothing. -/
theorem get_ambiguous_witness :
    get stAmb "x.o" = (.error (.ambiguousRule "x.o"), stAmb) :=
  get_ambiguous stAmb "x.o" ruleO ".o" ruleO2 "x" [] rfl rfl

/-- C10: once get has resolved an unregistered name (registering the
synthesized or placeholder target under it), a later add of an explicit
target with that name fails with DuplicateTargetError and changes
nothing. -/
theorem get_then_add_duplicate :
    ∀ s n t s₁ t', lookupA s.targets n = none → get s n = (.ok t, s₁) →
      Target.name t' = n → add s₁ t' = (.error (.duplicateTarget n), s₁) := by
  intro s n t s₁ t' hl hg hn
  have hreg : ∃ u, lookupA s₁.targets n = some u := by
    unfold get at hg
    rw [hl] at hg
    rcases hm : matchedRules s.rules n with _ | ⟨⟨rl, mt⟩, rest⟩
    · rw [hm] at hg
      injection hg with h1 h2
      subst h2
      exact ⟨_, by rw [lookupA_cons, if_pos rfl]⟩
    · rcases rest with _ | _
      · rw [hm] at hg
        injection hg with h1 h2
        subst h2
        exact ⟨_, by rw [lookupA_cons, if_pos rfl]⟩
      · rw [hm] at hg
        injection hg with h1 h2
        exact Except.noConfusion h1
  obtain ⟨u, hu⟩ := hreg
  unfold add
  rw [hn, hu]

/-- Witness for C10: get on the unknown name z registers the placeholder,
after which adding an explicit target named z is a duplicate error. -/
theorem get_then_add_duplicate_witness :
    add (get stEmpty "z").2 ({ name := "z" } : Target) =
      (.error (.duplicateTarget "z"), (get stEmpty "z").2) :=
  get_then_add_duplicate stEmpty "z" ({ name := "z", precious := true } : Target)
    (get stEmpty "z").2 ({ name := "z" } : Target) rfl rfl rfl

end Pake

namespace Pake

lemma lookupA_dictSetitem (vars : List (String × String)) (k v : String) :
    lookupA (dictSetitem vars k v) k = some v := by
  induction vars with
  | nil => simp [dictSetitem, lookupA]
  | cons p rest ih =>
    obtain ⟨a, b⟩ := p
    by_cases ha : a = k
    · subst ha
      simp [dictSetitem, lookupA]
    · simp only [dictSetitem, if_neg ha, lookupA]
      exact ih

/-- Counterexample for C6: seeding FOO=bar and then processing the command
token FOO=baz leaves FOO mapped to baz, not bar — the later token does
overwrite. -/
theorem variables_cli_overwrite_cex :
    lookupA (mainArgs [("FOO", "bar")] ["FOO=baz"]).1 "FOO" = some "baz"
    ∧ some "baz" ≠ some "bar" := ⟨rfl, by decide⟩

/-- C6 (amended): VariableCollection.__setitem__ is first-write-wins — an
assignment through it never overwrites an existing key — but main writes
key=value command tokens with a direct dict.__setitem__, so a later token
does overwrite the seeded value. -/
theorem variables_assignment_semantics :
    (∀ vars k v₀ v, lookupA vars k = some v₀ → setitem vars k v = vars)
    ∧ (∀ vars tok k v, parseAssignment tok = some (k, v) →
        lookupA ((mainArgs vars [tok]).1) k = some v) := by
  constructor
  · intro vars k v₀ v h
    unfold setitem
    rw [h]
    rfl
  · intro vars tok k v h
    show lookupA ((processArg (vars, []) tok).1) k = some v
    unfold processArg
    rw [h]
    exact lookupA_dictSetitem vars k v

/-- Witness for the amended C6: the restricted setter keeps FOO at bar,
while the CLI token path rewrites it to baz. -/
theorem variables_assignment_semantics_witness :
    setitem [("FOO", "bar")] "FOO" "baz" = [("FOO", "bar")]
    ∧ lookupA ((mainArgs [("FOO", "bar")] ["FOO=baz"]).1) "FOO" = some "baz" :=
  ⟨variables_assignment_semantics.1 [("FOO", "bar")] "FOO" "bar" "baz" rfl,
   variables_assignment_semantics.2 [("FOO", "bar")] "FOO=baz" "FOO" "baz" rfl⟩

/-- C7: a failing external command in run or output non-recursively cleans
only this target's own artifact (the registry and every other path are
untouched; the artifact itself is removed when its clean flag allows),
then raises BuildError carrying the target; and a BuildError from building
a dependency propagates unchanged out of the parent's build, with no
retry. -/
theorem run_output_failure {interp : Interp} :
    (∀ s n t, lookupA s.targets n = some t →
      (run s n false).1 = .error (.buildError n "CalledProcessError")
      ∧ ((run s n false).2).targets = s.targets
      ∧ (∀ m, m ≠ t.name → ((run s n false).2).fs m = s.fs m)
      ∧ (t.cleanFlag = true → t.precious = false →
          ((run s n false).2).fs t.name = none)
      ∧ run s n true = (.ok (), s))
    ∧ (∀ s n t, lookupA s.targets n = some t →
      (output s n false).1 = .error (.buildError n "CalledProcessError")
      ∧ ((output s n false).2).targets = s.targets
      ∧ (∀ m, m ≠ t.name → ((output s n false).2).fs m = s.fs m)
      ∧ (t.cleanFlag = true → t.precious = false →
          ((output s n false).2).fs t.name = none))
    ∧ (∀ f (dry : Bool) p tp d ds s td s₁ e s₂,
        lookupA s.targets p = some tp → tp.dependencies = d :: ds →
        get s d = (.ok td, s₁) → build interp f dry d s₁ = (.error e, s₂) →
        build interp (f+1) dry p s = (.error e, s₂)) := by
  have hcleanState : ∀ (s : PakeState) n t, lookupA s.targets n = some t →
      (clean 1 false false n s).2 =
        (if (t.cleanFlag || false) && !t.precious then
          pushEvent { s with fs := updateFS s.fs t.name none }
            (.removeFile t.name)
         else s) := by
    intro s n t hl
    rw [clean_succ, hl]
    dsimp only []
    rw [if_neg Bool.false_ne_true]
  have hfacts : ∀ (s : PakeState) n t, lookupA s.targets n = some t →
      ((clean 1 false false n s).2).targets = s.targets
      ∧ (∀ m, m ≠ t.name → ((clean 1 false false n s).2).fs m = s.fs m)
      ∧ (t.cleanFlag = true → t.precious = false →
          ((clean 1 false false n s).2).fs t.name = none) := by
    intro s n t hl
    rw [hcleanState s n t hl]
    rcases hcond : (t.cleanFlag || false) && !t.precious with _ | _
    · rw [if_neg Bool.false_ne_true]
      refine ⟨rfl, fun m _ => rfl, ?_⟩
      intro hcf hpr
      rw [hcf, hpr] at hcond
      simp at hcond
    · rw [if_pos rfl]
      refine ⟨rfl, ?_, ?_⟩
      · intro m hm
        show updateFS s.fs t.name none m = s.fs m
        unfold updateFS
        rw [if_neg hm]
      · intro _ _
        show updateFS s.fs t.name none t.name = none
        unfold updateFS
        rw [if_pos rfl]
  refine ⟨?_, ?_, ?_⟩
  · intro s n t hl
    obtain ⟨h1, h2, h3⟩ := hfacts s n t hl
    exact ⟨rfl, h1, h2, h3, rfl⟩
  · intro s n t hl
    obtain ⟨h1, h2, h3⟩ := hfacts s n t hl
    exact ⟨rfl, h1, h2, h3⟩
  · intro f dry p tp d ds s td s₁ e s₂ hp hdeps hget hbuild
    have hd : buildDeps interp f dry (.ok 0, s) tp.dependencies = (.error e, s₂) := by
      rw [hdeps, buildDeps_cons, hget]
      dsimp only []
      rw [hbuild]
      dsimp only []
      rw [buildDeps_error]
    exact build_succ_err hp hd

/-- Witness for C7: a failing run on d raises the BuildError naming d, and
a failing action under c's dependency d aborts c's build with the same
error. -/
theorem run_output_failure_witness :
    (run stFail "d" false).1 = .error (.buildError "d" "CalledProcessError")
    ∧ build (failI (.buildError "d" "boom")) 2 false "c" stFail =
        (.error (.buildError "d" "boom"),
         (build (failI (.buildError "d" "boom")) 1 false "d" stFail).2) :=
  ⟨((@run_output_failure pureOkI).1 stFail "d" wTgtD rfl).1,
   (@run_output_failure (failI (.buildError "d" "boom"))).2.2 1 false "c" wTgtC
     "d" [] stFail wTgtD stFail (.buildError "d" "boom")
     (build (failI (.buildError "d" "boom")) 1 false "d" stFail).2
     rfl rfl rfl rfl⟩

/-- C9: Target.cp calls pop() on its args tuple, which does not exist on
tuples, so every invocation — in particular cp("a.txt", "b.txt") — raises
AttributeError before copying anything, instead of copying the sources to
the destination. -/
theorem cp_attribute_error :
    cp ["a.txt", "b.txt"]
      = .error "AttributeError: tuple object has no attribute pop"
    ∧ ∀ args, cp args
      = .error "AttributeError: tuple object has no attribute pop" :=
  ⟨rfl, fun _ => rfl⟩

end Pake
